import Mathlib

/-!
Verification of the sunfish static-site library (src/lib.rs and
src/macro/include_dir.rs) against its natural-language specification.

Rust strings are modelled as `List Char` (one entry per Unicode scalar
value) when manipulated character-wise, and as `List Nat` (UTF-8 bytes,
each < 256) when the code works with raw bytes.  Machine integers in the
SHA-256 compression loop are modelled as `Nat` reduced `% 2^32` wherever
the Rust `u32` arithmetic wraps.
-/

/-- Iterate a function a fixed number of times. -/
def iterN {α : Type} (f : α → α) : Nat → α → α
  | 0, a => a
  | n + 1, a => iterN f n (f a)

/-- Right rotation of a 32-bit word, operands already reduced below 2^32. -/
def rotr32 (n x : Nat) : Nat := ((x >>> n) ||| (x <<< (32 - n))) % 4294967296

/-- SHA-256 big sigma 0 function. -/
def bigSigma0 (x : Nat) : Nat := rotr32 2 x ^^^ rotr32 13 x ^^^ rotr32 22 x

/-- SHA-256 big sigma 1 function. -/
def bigSigma1 (x : Nat) : Nat := rotr32 6 x ^^^ rotr32 11 x ^^^ rotr32 25 x

/-- SHA-256 small sigma 0 function. -/
def smallSigma0 (x : Nat) : Nat := rotr32 7 x ^^^ rotr32 18 x ^^^ (x >>> 3)

/-- SHA-256 small sigma 1 function. -/
def smallSigma1 (x : Nat) : Nat := rotr32 17 x ^^^ rotr32 19 x ^^^ (x >>> 10)

/-- SHA-256 choice function; not-x is modelled as xor with the 32-bit mask. -/
def chFun (x y z : Nat) : Nat := (x &&& y) ^^^ ((x ^^^ 4294967295) &&& z)

/-- SHA-256 majority function. -/
def majFun (x y z : Nat) : Nat := (x &&& y) ^^^ (x &&& z) ^^^ (y &&& z)

/-- The 64 SHA-256 round constants. -/
def sha256K : List Nat :=
  [1116352408, 1899447441, 3049323471, 3921009573, 961987163,
   1508970993, 2453635748, 2870763221, 3624381080, 310598401,
   607225278, 1426881987, 1925078388, 2162078206, 2614888103,
   3248222580, 3835390401, 4022224774, 264347078, 604807628,
   770255983, 1249150122, 1555081692, 1996064986, 2554220882,
   2821834349, 2952996808, 3210313671, 3336571891, 3584528711,
   113926993, 338241895, 666307205, 773529912, 1294757372,
   1396182291, 1695183700, 1986661051, 2177026350, 2456956037,
   2730485921, 2820302411, 3259730800, 3345764771, 3516065817,
   3600352804, 4094571909, 275423344, 430227734, 506948616,
   659060556, 883997877, 958139571, 1322822218, 1537002063,
   1747873779, 1955562222, 2024104815, 2227730452, 2361852424,
   2428436474, 2756734187, 3204031479, 3329325298]

/-- The SHA-256 initial hash value. -/
def sha256H0 : List Nat :=
  [1779033703, 3144134277, 1013904242, 2773480762,
   1359893119, 2600822924, 528734635, 1541459225]

/-- Group a byte list into big-endian 32-bit words, four bytes per word. -/
def bytesToWords : List Nat → List Nat
  | b0 :: b1 :: b2 :: b3 :: rest =>
      (((b0 * 256 + b1) * 256 + b2) * 256 + b3) :: bytesToWords rest
  | _ => []

/-- Big-endian bytes of a 32-bit word. -/
def wordToBytes (w : Nat) : List Nat :=
  [w / 16777216 % 256, w / 65536 % 256, w / 256 % 256, w % 256]

/-- Big-endian bytes of a 64-bit word (the message-length field). -/
def word64ToBytes (w : Nat) : List Nat :=
  [w / 2 ^ 56 % 256, w / 2 ^ 48 % 256, w / 2 ^ 40 % 256, w / 2 ^ 32 % 256,
   w / 2 ^ 24 % 256, w / 2 ^ 16 % 256, w / 2 ^ 8 % 256, w % 256]

/-- SHA-256 padding: append 0x80, zeros to 56 mod 64, then the bit length. -/
def padMessage (msg : List Nat) : List Nat :=
  msg ++ 0x80 :: List.replicate ((119 - msg.length % 64) % 64) 0
      ++ word64ToBytes (8 * msg.length % 2 ^ 64)

/-- Accumulator-based splitting of a byte list into 64-byte blocks. -/
def chunk64Aux : List Nat → List Nat → List (List Nat)
  | [], acc => if acc.isEmpty then [] else [acc]
  | b :: bs, acc =>
      if acc.length = 63 then (acc ++ [b]) :: chunk64Aux bs []
      else chunk64Aux bs (acc ++ [b])

/-- Split a byte list into 64-byte blocks (a padded message's length is an
exact multiple of 64, so every block is full). -/
def chunk64 (l : List Nat) : List (List Nat) := chunk64Aux l []

/-- One step of the SHA-256 message-schedule extension. -/
def scheduleStep (w : List Nat) : List Nat :=
  w ++ [(smallSigma1 (w.getD (w.length - 2) 0) + w.getD (w.length - 7) 0 +
         smallSigma0 (w.getD (w.length - 15) 0) + w.getD (w.length - 16) 0)
        % 4294967296]

/-- Extend the 16 block words to the 64-entry SHA-256 message schedule. -/
def msgSchedule (w : List Nat) : List Nat := iterN scheduleStep 48 w

/-- Working state of the SHA-256 compression loop. -/
structure Sha256State where
  a : Nat
  b : Nat
  c : Nat
  d : Nat
  e : Nat
  f : Nat
  g : Nat
  h : Nat

/-- One round of the SHA-256 compression function. -/
def sha256Round (s : Sha256State) (k w : Nat) : Sha256State :=
  let t1 := (s.h + bigSigma1 s.e + chFun s.e s.f s.g + k + w) % 4294967296
  let t2 := (bigSigma0 s.a + majFun s.a s.b s.c) % 4294967296
  { a := (t1 + t2) % 4294967296, b := s.a, c := s.b, d := s.c,
    e := (s.d + t1) % 4294967296, f := s.e, g := s.f, h := s.g }

/-- Process one 64-byte block, updating the eight chaining words. -/
def processBlock (hs : List Nat) (block : List Nat) : List Nat :=
  let w := msgSchedule (bytesToWords block)
  let s0 : Sha256State :=
    ⟨hs.getD 0 0, hs.getD 1 0, hs.getD 2 0, hs.getD 3 0,
     hs.getD 4 0, hs.getD 5 0, hs.getD 6 0, hs.getD 7 0⟩
  let s := (List.zip sha256K w).foldl (fun st kw => sha256Round st kw.1 kw.2) s0
  [(s0.a + s.a) % 4294967296, (s0.b + s.b) % 4294967296,
   (s0.c + s.c) % 4294967296, (s0.d + s.d) % 4294967296,
   (s0.e + s.e) % 4294967296, (s0.f + s.f) % 4294967296,
   (s0.g + s.g) % 4294967296, (s0.h + s.h) % 4294967296]

/-- SHA-256 digest (32 bytes) of a byte sequence, per FIPS 180-4; this models
the external sha2 crate used by both hash functions in the repository. -/
def sha256 (msg : List Nat) : List Nat :=
  (((chunk64 (padMessage msg)).foldl processBlock sha256H0).map wordToBytes).flatten

/-- Lowercase hex digit for a value below 16. -/
def hexDigit (n : Nat) : Char := Char.ofNat (if n < 10 then 48 + n else 87 + n)

/-- Lowercase hex encoding of a byte list, two characters per byte; this
models the external hex crate's encode. -/
def hexChars (bs : List Nat) : List Char :=
  (bs.map (fun b => [hexDigit (b / 16), hexDigit (b % 16)])).flatten

/-- UTF-8 encoding of a Unicode scalar value. -/
def encodeChar (c : Nat) : List Nat :=
  if c < 128 then [c]
  else if c < 2048 then [192 + c / 64, 128 + c % 64]
  else if c < 65536 then [224 + c / 4096, 128 + c / 64 % 64, 128 + c % 64]
  else [240 + c / 262144, 128 + c / 4096 % 64, 128 + c / 64 % 64, 128 + c % 64]

/-- UTF-8 bytes of a character list (a Rust String's bytes). -/
def charBytes (l : List Char) : List Nat :=
  (l.map (fun c => encodeChar c.toNat)).flatten

/-- UTF-8 bytes of a Lean string literal. -/
def strBytes (s : String) : List Nat := charBytes s.data

namespace Sunfish

/-- Transcribes fn hash in src/lib.rs: hex-encode the SHA-256 digest and keep
the first 16 characters (byte slicing of an ASCII hex string equals taking
the first 16 characters). -/
def hash (bytes : List Nat) : String :=
  String.mk ((hexChars (sha256 bytes)).take 16)

end Sunfish

namespace Gen

/-- Transcribes fn hash in src/macro/include_dir.rs, textually identical to
the library's hash function. -/
def hash (bytes : List Nat) : String :=
  String.mk ((hexChars (sha256 bytes)).take 16)

end Gen

lemma processBlock_length (hs block : List Nat) : (processBlock hs block).length = 8 := rfl

lemma foldl_processBlock_length :
    ∀ (bs : List (List Nat)) (hs : List Nat), hs.length = 8 →
      (bs.foldl processBlock hs).length = 8 := by
  intro bs
  induction bs with
  | nil => intro hs h; simpa using h
  | cons b rest ih =>
      intro hs _
      simpa using ih (processBlock hs b) (processBlock_length hs b)

lemma map_wordToBytes_flatten_length (ws : List Nat) :
    ((ws.map wordToBytes).flatten).length = 4 * ws.length := by
  induction ws with
  | nil => rfl
  | cons w rest ih => simp [wordToBytes, ih]; ring

lemma sha256_length (msg : List Nat) : (sha256 msg).length = 32 := by
  unfold sha256
  rw [map_wordToBytes_flatten_length,
      foldl_processBlock_length _ _ (by rfl)]

lemma hexChars_length (bs : List Nat) : (hexChars bs).length = 2 * bs.length := by
  induction bs with
  | nil => rfl
  | cons b rest ih => simp [hexChars] at ih ⊢; omega

/-- Sanity check of the SHA-256 model against the FIPS 180-4 test vector
for the message "abc". -/
lemma sha256_known_vector : Sunfish.hash (strBytes "abc") = "ba7816bf8f01cfea" := by decide

/-- C8: for every byte sequence b the two hash functions (library and macro
crate) agree, the result is the first 16 hex characters of the SHA-256
digest of b, and it always has length 16.  Both functions are pure Lean
functions of their input bytes, so determinism across calls and processes
is inherent to the model. -/
theorem hash_fingerprint_agreement :
    ∀ b : List Nat,
      Sunfish.hash b = Gen.hash b
      ∧ Sunfish.hash b = String.mk ((hexChars (sha256 b)).take 16)
      ∧ (Sunfish.hash b).length = 16 := by
  intro b
  refine ⟨rfl, rfl, ?_⟩
  show ((hexChars (sha256 b)).take 16).length = 16
  rw [List.length_take, hexChars_length, sha256_length]
  rfl

/-- Decides whether a byte is a UTF-8 continuation byte (0x80..0xBF). -/
def contByte (b : Nat) : Bool := decide (128 ≤ b ∧ b ≤ 191)

/-- For a UTF-8 lead byte: number of continuation bytes that must follow and
the admissible range of the first of them, per the strict UTF-8 validation
(no overlong forms, no surrogates, max U+10FFFF) that Rust's str::from_utf8
performs; none for an invalid lead byte. -/
def seqLen (b : Nat) : Option (Nat × Nat × Nat) :=
  if b ≤ 127 then some (0, 0, 0)
  else if 194 ≤ b ∧ b ≤ 223 then some (1, 128, 191)
  else if b = 224 then some (2, 160, 191)
  else if 225 ≤ b ∧ b ≤ 236 then some (2, 128, 191)
  else if b = 237 then some (2, 128, 159)
  else if 238 ≤ b ∧ b ≤ 239 then some (2, 128, 191)
  else if b = 240 then some (3, 144, 191)
  else if 241 ≤ b ∧ b ≤ 243 then some (3, 128, 191)
  else if b = 244 then some (3, 128, 143)
  else none

/-- State-machine UTF-8 validation: k is the number of continuation bytes
still expected and lo..hi the admissible range for the next byte. -/
def utf8ValidFrom : Nat → Nat → Nat → List Nat → Bool
  | 0, _, _, [] => true
  | _ + 1, _, _, [] => false
  | 0, _, _, b :: bs =>
      match seqLen b with
      | none => false
      | some (n, lo, hi) => utf8ValidFrom n lo hi bs
  | k + 1, lo, hi, b :: bs =>
      if lo ≤ b ∧ b ≤ hi then utf8ValidFrom k 128 191 bs else false

/-- Whether a byte list is valid UTF-8 (Rust's to_str succeeds exactly then). -/
def utf8Valid (l : List Nat) : Bool := utf8ValidFrom 0 0 0 l

lemma seqLen_ascii {b : Nat} (h : b ≤ 127) : seqLen b = some (0, 0, 0) := by
  simp [seqLen, h]

lemma seqLen_lo {b n lo hi : Nat} (h : seqLen b = some (n, lo, hi)) (hn : n ≠ 0) :
    128 ≤ lo := by
  unfold seqLen at h
  split_ifs at h <;>
    simp only [Option.some.injEq, Prod.mk.injEq] at h <;> omega

lemma utf8ValidFrom_split :
    ∀ (xs : List Nat) (k lo hi a : Nat) (ys : List Nat),
      a ≤ 127 → (k ≠ 0 → 128 ≤ lo) →
      utf8ValidFrom k lo hi (xs ++ a :: ys) = true →
      utf8ValidFrom k lo hi xs = true ∧ utf8Valid ys = true := by
  intro xs
  induction xs with
  | nil =>
      intro k lo hi a ys ha hinv hv
      cases k with
      | zero =>
          simp only [List.nil_append] at hv
          rw [show utf8ValidFrom 0 lo hi (a :: ys)
                = match seqLen a with
                  | none => false
                  | some (n, lo', hi') => utf8ValidFrom n lo' hi' ys from rfl,
              seqLen_ascii ha] at hv
          exact ⟨rfl, hv⟩
      | succ k' =>
          exfalso
          have hlo := hinv (by simp)
          simp only [List.nil_append, utf8ValidFrom] at hv
          rw [if_neg (by omega)] at hv
          exact Bool.false_ne_true hv
  | cons b xs' ih =>
      intro k lo hi a ys ha hinv hv
      cases k with
      | zero =>
          rw [show utf8ValidFrom 0 lo hi ((b :: xs') ++ a :: ys)
                = match seqLen b with
                  | none => false
                  | some (n, lo', hi') => utf8ValidFrom n lo' hi' (xs' ++ a :: ys)
                from rfl] at hv
          cases hsl : seqLen b with
          | none => rw [hsl] at hv; exact absurd hv (by simp)
          | some t =>
              obtain ⟨n, lo', hi'⟩ := t
              rw [hsl] at hv
              have hres := ih n lo' hi' a ys ha (fun hn => seqLen_lo hsl hn) hv
              refine ⟨?_, hres.2⟩
              rw [show utf8ValidFrom 0 lo hi (b :: xs')
                    = match seqLen b with
                      | none => false
                      | some (n, lo', hi') => utf8ValidFrom n lo' hi' xs' from rfl,
                  hsl]
              exact hres.1
      | succ k' =>
          rw [show utf8ValidFrom (k' + 1) lo hi ((b :: xs') ++ a :: ys)
                = if lo ≤ b ∧ b ≤ hi then utf8ValidFrom k' 128 191 (xs' ++ a :: ys)
                  else false from rfl] at hv
          by_cases hc : lo ≤ b ∧ b ≤ hi
          · rw [if_pos hc] at hv
            have hres := ih k' 128 191 a ys ha (fun _ => le_refl 128) hv
            refine ⟨?_, hres.2⟩
            rw [show utf8ValidFrom (k' + 1) lo hi (b :: xs')
                  = if lo ≤ b ∧ b ≤ hi then utf8ValidFrom k' 128 191 xs'
                    else false from rfl, if_pos hc]
            exact hres.1
          · rw [if_neg hc] at hv
            exact absurd hv (by simp)

lemma utf8Valid_split {xs : List Nat} {a : Nat} {ys : List Nat} (ha : a ≤ 127)
    (h : utf8Valid (xs ++ a :: ys) = true) :
    utf8Valid xs = true ∧ utf8Valid ys = true :=
  utf8ValidFrom_split xs 0 0 0 a ys ha (by simp) h

/-- Split a list on a separator; always returns at least one (possibly empty)
chunk, and the chunks joined with the separator restore the input. -/
def splitOnSep {α : Type} [DecidableEq α] (sep : α) : List α → List (List α)
  | [] => [[]]
  | a :: rest =>
      match splitOnSep sep rest with
      | [] => [[a]]
      | h :: t => if a = sep then [] :: h :: t else (a :: h) :: t

/-- Join chunks with a separator between consecutive chunks. -/
def joinSep {α : Type} (sep : α) : List (List α) → List α
  | [] => []
  | [c] => c
  | c :: cs => c ++ sep :: joinSep sep cs

lemma splitOnSep_ne_nil {α : Type} [DecidableEq α] (sep : α) (l : List α) :
    splitOnSep sep l ≠ [] := by
  cases l with
  | nil => simp [splitOnSep]
  | cons a rest =>
      simp only [splitOnSep]
      cases splitOnSep sep rest with
      | nil => simp
      | cons h t =>
          by_cases hc : a = sep
          · simp [hc]
          · simp [hc]

lemma joinSep_cons_cons {α : Type} (sep : α) (c : List α) (cs : List (List α))
    (hcs : cs ≠ []) : joinSep sep (c :: cs) = c ++ sep :: joinSep sep cs := by
  cases cs with
  | nil => exact absurd rfl hcs
  | cons c' cs' => rfl

lemma joinSep_splitOnSep {α : Type} [DecidableEq α] (sep : α) (l : List α) :
    joinSep sep (splitOnSep sep l) = l := by
  induction l with
  | nil => rfl
  | cons a rest ih =>
      cases hs : splitOnSep sep rest with
      | nil => exact absurd hs (splitOnSep_ne_nil sep rest)
      | cons h t =>
          rw [hs] at ih
          by_cases hc : a = sep
          · have hsplit : splitOnSep sep (a :: rest) = [] :: h :: t := by
              simp only [splitOnSep, hs]
              rw [if_pos hc]
            rw [hsplit, joinSep_cons_cons sep [] (h :: t) (by simp), ih, hc]
            rfl
          · have hsplit : splitOnSep sep (a :: rest) = (a :: h) :: t := by
              simp only [splitOnSep, hs]
              rw [if_neg hc]
            rw [hsplit]
            cases t with
            | nil =>
                simp only [joinSep] at ih ⊢
                rw [ih]
            | cons t0 ts =>
                rw [joinSep_cons_cons sep (a :: h) (t0 :: ts) (by simp),
                    List.cons_append,
                    ← joinSep_cons_cons sep h (t0 :: ts) (by simp), ih]

lemma utf8Valid_joinSep_chunks :
    ∀ (cs : List (List Nat)), utf8Valid (joinSep 47 cs) = true →
      ∀ c ∈ cs, utf8Valid c = true := by
  intro cs
  induction cs with
  | nil => intro _ c hc; exact absurd hc (List.not_mem_nil c)
  | cons c0 cs' ih =>
      intro hv c hc
      cases cs' with
      | nil =>
          rcases List.mem_singleton.mp hc with rfl
          simpa [joinSep] using hv
      | cons c1 cs'' =>
          rw [joinSep_cons_cons 47 c0 (c1 :: cs'') (by simp)] at hv
          have hsplit := utf8Valid_split (by omega) hv
          rcases List.mem_cons.mp hc with rfl | hmem
          · exact hsplit.1
          · exact ih hsplit.2 c hmem

lemma utf8Valid_component {l c : List Nat} (hv : utf8Valid l = true)
    (hc : c ∈ splitOnSep 47 l) : utf8Valid c = true := by
  apply utf8Valid_joinSep_chunks (splitOnSep 47 l) _ c hc
  rw [joinSep_splitOnSep]
  exact hv

/-- Split a list at the last occurrence of a separator, returning the parts
before and after it; none when the separator does not occur. -/
def lastSplitOnSep {α : Type} [DecidableEq α] (sep : α) : List α → Option (List α × List α)
  | [] => none
  | a :: rest =>
      match lastSplitOnSep sep rest with
      | some (pre, post) => some (a :: pre, post)
      | none => if a = sep then some ([], rest) else none

lemma lastSplitOnSep_eq {α : Type} [DecidableEq α] {sep : α} :
    ∀ {l pre post : List α}, lastSplitOnSep sep l = some (pre, post) →
      l = pre ++ sep :: post := by
  intro l
  induction l with
  | nil => intro pre post h; exact absurd h (by simp [lastSplitOnSep])
  | cons a rest ih =>
      intro pre post h
      simp only [lastSplitOnSep] at h
      cases hr : lastSplitOnSep sep rest with
      | some pp =>
          rw [hr] at h
          obtain ⟨hpre, hpost⟩ := Prod.mk.injEq .. ▸ Option.some.inj h
          subst hpost
          rw [← hpre, List.cons_append]
          exact congrArg (a :: ·) (ih hr)
      | none =>
          rw [hr] at h
          by_cases hc : a = sep
          · rw [if_pos hc] at h
            obtain ⟨hpre, hpost⟩ := Prod.mk.injEq .. ▸ Option.some.inj h
            subst hpost
            rw [← hpre, hc]
            rfl
          · rw [if_neg hc] at h
            exact absurd h (by simp)

/-- Models Rust std Path::file_name on unix path bytes: the last component of
the path after dropping empty and "." components; none when the path ends in
".." or has no normal component.  47 is the byte of the path separator and
46 the byte of the dot. -/
def fileName (p : List Nat) : Option (List Nat) :=
  match ((splitOnSep 47 p).filter (fun c => decide (c ≠ [] ∧ c ≠ [46]))).getLast? with
  | none => none
  | some c => if c = [46, 46] then none else some c

/-- Models the Rust std helper that splits a file name at its last dot: none
when the name is "..", contains no dot, or the only dot is leading;
otherwise the part after the last dot. -/
def rsplitFileAtDot (name : List Nat) : Option (List Nat) :=
  if name = [46, 46] then none
  else
    match lastSplitOnSep 46 name with
    | none => none
    | some (pre, post) => if pre = [] then none else some post

/-- Models Rust std Path::extension on unix path bytes. -/
def extension (p : List Nat) : Option (List Nat) :=
  (fileName p).bind rsplitFileAtDot

lemma fileName_mem {p name : List Nat} (h : fileName p = some name) :
    name ∈ splitOnSep 47 p := by
  unfold fileName at h
  cases hl : ((splitOnSep 47 p).filter (fun c => decide (c ≠ [] ∧ c ≠ [46]))).getLast? with
  | none => simp only [hl] at h; exact Option.noConfusion h
  | some c =>
      simp only [hl] at h
      by_cases hc : c = [46, 46]
      · rw [if_pos hc] at h; exact absurd h (by simp)
      · rw [if_neg hc] at h
        rcases Option.some.inj h with rfl
        exact List.mem_of_mem_filter (List.mem_of_mem_getLast? hl)

lemma extension_valid {p e : List Nat} (hv : utf8Valid p = true)
    (he : extension p = some e) : utf8Valid e = true := by
  unfold extension at he
  cases hf : fileName p with
  | none => rw [hf] at he; exact absurd he (by simp)
  | some name =>
      rw [hf] at he
      rw [show (some name).bind rsplitFileAtDot = rsplitFileAtDot name from rfl] at he
      unfold rsplitFileAtDot at he
      by_cases hdd : name = [46, 46]
      · rw [if_pos hdd] at he; exact absurd he (by simp)
      · rw [if_neg hdd] at he
        cases hls : lastSplitOnSep 46 name with
        | none => rw [hls] at he; exact absurd he (by simp)
        | some pp =>
            obtain ⟨pre, post⟩ := pp
            simp only [hls] at he
            by_cases hpre : pre = []
            · rw [if_pos hpre] at he; exact absurd he (by simp)
            · rw [if_neg hpre] at he
              rcases Option.some.inj he with rfl
              have hname : utf8Valid name = true :=
                utf8Valid_component hv (fileName_mem hf)
              rw [lastSplitOnSep_eq hls] at hname
              exact (utf8Valid_split (by omega) hname).2

namespace Sunfish

/-- Transcribes pub fn asset_path in src/lib.rs over the path's bytes.  The
Rust code unwraps, in order: the extension's presence, the extension's
UTF-8 validity (inside the map), and the whole path's UTF-8 validity; a
failed unwrap is a panic, modelled as none.  On success it formats
"/assets/{hash}.{extension}" where the hash is of the path's own bytes;
the result is returned as its UTF-8 bytes (46 is the dot). -/
def asset_path (p : List Nat) : Option (List Nat) :=
  match extension p with
  | none => none
  | some ext =>
      if utf8Valid ext then
        if utf8Valid p then
          some (strBytes "/assets/" ++ strBytes (hash p) ++ [46] ++ ext)
        else none
      else none

/-- Transcribes pub struct ClientPaths in src/lib.rs. -/
structure ClientPaths where
  path_js : String
  path_wasm : String

/-- Transcribes pub fn client_paths in src/lib.rs: both paths embed the hash
of the crate name's bytes (a str is always valid UTF-8, so as_bytes cannot
fail). -/
def client_paths (crate_name : String) : ClientPaths :=
  { path_js := "/js/" ++ hash (strBytes crate_name) ++ ".js",
    path_wasm := "/js/" ++ hash (strBytes crate_name) ++ "_bg.wasm" }

end Sunfish

/-- C9: for every valid-UTF-8 path with an extension, asset_path returns
the bytes of "/assets/{h}.{ext}" where h is the fingerprint of the path
string itself (not of any file content) and ext is the path's extension;
and for every crate name, client_paths returns "/js/{h}.js" and
"/js/{h}_bg.wasm" where h is the fingerprint of the name string. -/
theorem asset_client_path_format :
    (∀ p ext, utf8Valid p = true → extension p = some ext →
       Sunfish.asset_path p =
         some (strBytes "/assets/" ++ strBytes (Sunfish.hash p) ++ [46] ++ ext))
    ∧ (∀ name : String,
        (Sunfish.client_paths name).path_js
            = "/js/" ++ Sunfish.hash (strBytes name) ++ ".js"
        ∧ (Sunfish.client_paths name).path_wasm
            = "/js/" ++ Sunfish.hash (strBytes name) ++ "_bg.wasm") := by
  constructor
  · intro p ext hv he
    unfold Sunfish.asset_path
    simp only [he]
    rw [if_pos (extension_valid hv he), if_pos hv]
  · intro name
    exact ⟨rfl, rfl⟩

/-- Witness for C9 at the concrete path "/a.css". -/
theorem asset_client_path_format_witness :
    Sunfish.asset_path (strBytes "/a.css") =
      some (strBytes "/assets/" ++ strBytes (Sunfish.hash (strBytes "/a.css"))
            ++ [46] ++ strBytes "css") :=
  asset_client_path_format.1 (strBytes "/a.css") (strBytes "css")
    (by decide) (by decide)

/-- C10: asset_path is total exactly on valid-UTF-8 paths carrying an
extension: under that precondition its internal unwraps cannot fire, while
a path with no extension makes the unwrap panic (modelled as none), as the
concrete path "/favicon" shows. -/
theorem asset_path_totality :
    (∀ p, (extension p).isSome → utf8Valid p = true →
       (Sunfish.asset_path p).isSome)
    ∧ (∀ p, extension p = none → Sunfish.asset_path p = none)
    ∧ Sunfish.asset_path (strBytes "/favicon") = none := by
  refine ⟨?_, ?_, by decide⟩
  · intro p hext hv
    obtain ⟨ext, he⟩ := Option.isSome_iff_exists.mp hext
    rw [asset_client_path_format.1 p ext hv he]
    rfl
  · intro p he
    unfold Sunfish.asset_path
    simp only [he]

/-- Witness for C10 at the concrete path "/a.css". -/
theorem asset_path_totality_witness :
    (Sunfish.asset_path (strBytes "/a.css")).isSome :=
  asset_path_totality.1 (strBytes "/a.css") (by decide) (by decide)

namespace Sunfish

/-- Modelled from the spec: src/lib.rs declares mod include_dir but that
module's source file is not present under src/; per spec section 3 a File
is a read-only byte sequence paired with an optional fingerprint (present
for embedded files, absent for live-filesystem files).  serve_asset only
consumes a File through its data and hash accessors. -/
structure File where
  data : List Nat
  hash : Option String
deriving DecidableEq

/-- An HTTP request as serve_asset consumes it: the method name, the URI
path (characters of the str the http crate yields), and the raw bytes of
the If-None-Match header value when present. -/
structure Request where
  method : String
  path : List Char
  ifNoneMatch : Option (List Nat)
deriving DecidableEq

/-- An HTTP response as serve_asset builds it: status code, the optional
Content-Type and ETag headers, and the body bytes. -/
structure Response where
  status : Nat
  contentType : Option String
  etag : Option String
  body : List Nat
deriving DecidableEq

/-- Transcribes fn content_type in src/lib.rs: a fixed extension table
checked with ends_with, in source order. -/
def content_type (path : List Char) : Option String :=
  if (".css".data).isSuffixOf path then some "text/css"
  else if (".js".data).isSuffixOf path then some "text/javascript"
  else if (".svg".data).isSuffixOf path then some "image/svg+xml"
  else if (".wasm".data).isSuffixOf path then some "application/wasm"
  else none

/-- Transcribes Sunfish::serve_asset in src/lib.rs, parameterized by the
directory abstraction's read (self.output.read).  The outer none models
the panic of strip_prefix('/').unwrap() on a path without a leading slash;
some none models returning Ok(None).  The ETag header is added before the
If-None-Match comparison, so both the 304 and the 200 responses carry it
whenever the File has a hash; the header comparison is on raw bytes. -/
def serve_asset (read : List Char → Option File) (req : Request) :
    Option (Option Response) :=
  if req.method ≠ "GET" then some none
  else
    match req.path with
    | '/' :: p =>
        match read p with
        | none => some none
        | some file =>
            let ct := content_type p
            match file.hash with
            | some h =>
                if req.ifNoneMatch = some (strBytes h) then
                  some (some ⟨304, ct, some h, []⟩)
                else some (some ⟨200, ct, some h, file.data⟩)
            | none => some (some ⟨200, ct, none, file.data⟩)
    | _ => none

/-- Transcribes Sunfish::serve_page in src/lib.rs: it simply invokes the
externally supplied page-dispatch function.  That function takes the
request by mutable reference, so it is modelled as returning the possibly
mutated request alongside its result. -/
def serve_page (routes_handler : Request → Except String (Option Response) × Request)
    (req : Request) : Except String (Option Response) × Request :=
  routes_handler req

/-- Transcribes Sunfish::handle in src/lib.rs: serve_page first (its error
propagates via ?), then serve_asset on the possibly mutated request only
when serve_page produced no response.  The outer none again models a
serve_asset panic. -/
def handle (routes_handler : Request → Except String (Option Response) × Request)
    (read : List Char → Option File) (req : Request) :
    Option (Except String (Option Response)) :=
  let pr := serve_page routes_handler req
  match pr.1 with
  | Except.error e => some (Except.error e)
  | Except.ok (some r) => some (Except.ok (some r))
  | Except.ok none =>
      match serve_asset read pr.2 with
      | none => none
      | some o => some (Except.ok o)

end Sunfish

/-- C1: on a GET request whose path resolves to a File, serve_asset sets the
ETag header to the File's hash whenever one is present, answers 304 with an
empty body exactly when the If-None-Match header bytes equal the hash
bytes, and otherwise (different header value, absent header, or hash-less
File) answers 200 with the File's full data as the body. -/
theorem serve_asset_conditional :
    ∀ (read : List Char → Option Sunfish.File) (p : List Char)
      (req : Sunfish.Request) (file : Sunfish.File),
      req.method = "GET" → req.path = '/' :: p → read p = some file →
      (∀ h, file.hash = some h →
         (req.ifNoneMatch = some (strBytes h) →
            Sunfish.serve_asset read req
              = some (some ⟨304, Sunfish.content_type p, some h, []⟩))
         ∧ (req.ifNoneMatch ≠ some (strBytes h) →
            Sunfish.serve_asset read req
              = some (some ⟨200, Sunfish.content_type p, some h, file.data⟩)))
      ∧ (file.hash = none →
         Sunfish.serve_asset read req
           = some (some ⟨200, Sunfish.content_type p, none, file.data⟩)) := by
  intro read p req file hm hp hread
  obtain ⟨m, pa, inm⟩ := req
  simp only at hm hp
  subst hm hp
  constructor
  · intro h hh
    unfold Sunfish.serve_asset
    simp only [hread, hh]
    rw [if_neg (by simp)]
    constructor
    · intro hinm
      rw [if_pos hinm]
    · intro hinm
      rw [if_neg hinm]
  · intro hh
    unfold Sunfish.serve_asset
    simp only [hread, hh]
    rw [if_neg (by simp)]

/-- Witness for C1: a concrete embedded file with hash "h1" under path
a.css, requested with a matching If-None-Match, yields 304 with an empty
body and the ETag set. -/
theorem serve_asset_conditional_witness :
    Sunfish.serve_asset
        (fun q => if q = "a.css".data then some ⟨[1, 2], some "h1"⟩ else none)
        ⟨"GET", '/' :: "a.css".data, some (strBytes "h1")⟩
      = some (some ⟨304, some "text/css", some "h1", []⟩) := by
  have hres :=
    ((serve_asset_conditional
        (fun q => if q = "a.css".data then some ⟨[1, 2], some "h1"⟩ else none)
        ("a.css".data)
        ⟨"GET", '/' :: "a.css".data, some (strBytes "h1")⟩
        ⟨[1, 2], some "h1"⟩ rfl rfl (by decide)).1 "h1" rfl).1 rfl
  rw [hres]
  have hct : Sunfish.content_type ("a.css".data) = some "text/css" := by decide
  rw [hct]

/-- C7: handle consults serve_page first; a page response or error is
returned as is and serve_asset is never consulted, while an empty page
result makes the outcome exactly serve_asset's result on the (possibly
mutated) request; handle yields no response exactly when both serve_page
and serve_asset yield none. -/
theorem handle_page_then_asset :
    ∀ (rh : Sunfish.Request → Except String (Option Sunfish.Response) × Sunfish.Request)
      (read : List Char → Option Sunfish.File) (req : Sunfish.Request),
      (∀ r req', rh req = (Except.ok (some r), req') →
         Sunfish.handle rh read req = some (Except.ok (some r)))
      ∧ (∀ e req', rh req = (Except.error e, req') →
         Sunfish.handle rh read req = some (Except.error e))
      ∧ (∀ req', rh req = (Except.ok none, req') →
         Sunfish.handle rh read req = (Sunfish.serve_asset read req').map Except.ok)
      ∧ (Sunfish.handle rh read req = some (Except.ok none) ↔
         ∃ req', rh req = (Except.ok none, req')
           ∧ Sunfish.serve_asset read req' = some none) := by
  intro rh read req
  refine ⟨?_, ?_, ?_, ?_⟩
  · intro r req' h
    unfold Sunfish.handle Sunfish.serve_page
    simp only [h]
  · intro e req' h
    unfold Sunfish.handle Sunfish.serve_page
    simp only [h]
  · intro req' h
    unfold Sunfish.handle Sunfish.serve_page
    simp only [h]
    cases Sunfish.serve_asset read req' <;> rfl
  · constructor
    · intro h
      unfold Sunfish.handle Sunfish.serve_page at h
      rcases hrh : rh req with ⟨res, req'⟩
      rw [hrh] at h
      cases res with
      | error e => simp at h
      | ok o =>
          cases o with
          | some r => simp at h
          | none =>
              refine ⟨req', rfl, ?_⟩
              simp only at h
              cases hsa : Sunfish.serve_asset read req' with
              | none => rw [hsa] at h; exact Option.noConfusion h
              | some o' =>
                  rw [hsa] at h
                  simp only [Option.some.injEq] at h
                  rw [show o' = none from Except.ok.inj h]
    · rintro ⟨req', hrh, hsa⟩
      unfold Sunfish.handle Sunfish.serve_page
      simp only [hrh, hsa]

/-- Witness for C7: with a page dispatcher that declines and an empty asset
store, handle yields no response. -/
theorem handle_page_then_asset_witness :
    Sunfish.handle (fun r => (Except.ok none, r)) (fun _ => none)
        ⟨"GET", '/' :: "x".data, none⟩
      = some (Except.ok none) := by
  exact (handle_page_then_asset (fun r => (Except.ok none, r)) (fun _ => none)
      ⟨"GET", '/' :: "x".data, none⟩).2.2.2.mpr
    ⟨⟨"GET", '/' :: "x".data, none⟩, rfl, by decide⟩

/-- Sequence a list through an Option-returning function, failing when any
element fails; models a Rust loop whose body can panic or propagate. -/
def optionMapList {α β : Type} (f : α → Option β) : List α → Option (List β)
  | [] => some []
  | a :: l =>
      match f a, optionMapList f l with
      | some b, some bs => some (b :: bs)
      | _, _ => none

lemma optionMapList_mem_iff {α β : Type} (f : α → Option β) :
    ∀ {l : List α} {bs : List β}, optionMapList f l = some bs →
      ∀ b, b ∈ bs ↔ ∃ a ∈ l, f a = some b := by
  intro l
  induction l with
  | nil =>
      intro bs h b
      rcases Option.some.inj h with rfl
      simp
  | cons a l ih =>
      intro bs h b
      cases hfa : f a with
      | none =>
          simp only [optionMapList, hfa] at h
          exact Option.noConfusion h
      | some b0 =>
          cases hrest : optionMapList f l with
          | none =>
              simp only [optionMapList, hfa, hrest] at h
              exact Option.noConfusion h
          | some bs0 =>
              simp only [optionMapList, hfa, hrest] at h
              rcases Option.some.inj h with rfl
              constructor
              · intro hb
                rcases List.mem_cons.mp hb with rfl | hb'
                · exact ⟨a, List.mem_cons_self a l, hfa⟩
                · obtain ⟨a', ha', hfa'⟩ := (ih hrest b).mp hb'
                  exact ⟨a', List.mem_cons_of_mem a ha', hfa'⟩
              · rintro ⟨a', ha', hfa'⟩
                rcases List.mem_cons.mp ha' with rfl | ha''
                · rw [hfa] at hfa'
                  rcases Option.some.inj hfa' with rfl
                  exact List.mem_cons_self _ _
                · exact List.mem_cons_of_mem b0 ((ih hrest b).mpr ⟨a', ha'', hfa'⟩)

/-- A model filesystem node.  Directory entries are named children; a
symlink node stands for a whole chain of symbolic links and records only
what the chain finally resolves to (a regular file's bytes, a directory,
or nothing for a dangling chain), which is all that symlink-following
metadata and read calls can observe.  Walkers do not follow links. -/
inductive FsNode where
  | file (data : List Nat)
  | dir (entries : List (List Char × FsNode))
  | symlinkFile (data : List Nat)
  | symlinkDir
  | symlinkBroken

/-- Models std::fs::metadata(path).map(is_file): metadata follows symbolic
links, so a symlink to a regular file reports true, a symlink to a
directory false, and a dangling symlink an error (none). -/
def metadataIsFile : FsNode → Option Bool
  | FsNode.file _ => some true
  | FsNode.dir _ => some false
  | FsNode.symlinkFile _ => some true
  | FsNode.symlinkDir => some false
  | FsNode.symlinkBroken => none

/-- Models std::fs::read, which follows symbolic links: the bytes of the
resolved regular file, none (an error) otherwise. -/
def readFileData : FsNode → Option (List Nat)
  | FsNode.file d => some d
  | FsNode.symlinkFile d => some d
  | _ => none

/-- The ignore crate's hidden-entry test: the file name starts with a dot. -/
def isHiddenName (name : List Char) : Bool := name.take 1 = ['.']

mutual
/-- Models walkdir::WalkDir with follow_links disabled (the default used by
src/macro/include_dir.rs): yields every node including the root and
symlink entries themselves, without descending into symlinked
directories.  Paths are component lists relative to the walk root. -/
def walkAll (base : List (List Char)) : FsNode → List (List (List Char) × FsNode)
  | FsNode.dir es => (base, FsNode.dir es) :: walkAllEntries base es

  | n => [(base, n)]

/-- Walks a directory's entry list in order. -/
def walkAllEntries (base : List (List Char)) :
    List (List Char × FsNode) → List (List (List Char) × FsNode)
  | [] => []
  | e :: rest => walkAll (base ++ [e.1]) e.2 ++ walkAllEntries base rest
end

mutual
/-- Models ignore::Walk with its default filters, as used by
Sunfish::export: like walkAll but hidden (dot-prefixed) entries are
skipped and not descended into.  The gitignore-rule filters are inactive
on trees that contain no ignore files and are not inside a git
repository; the model assumes such a tree, making the hidden-file filter
the only active one. -/
def walkIgnore (base : List (List Char)) : FsNode → List (List (List Char) × FsNode)
  | FsNode.dir es => (base, FsNode.dir es) :: walkIgnoreEntries base es

  | n => [(base, n)]

/-- Walks a directory's entry list, skipping hidden names. -/
def walkIgnoreEntries (base : List (List Char)) :
    List (List Char × FsNode) → List (List (List Char) × FsNode)
  | [] => []
  | e :: rest =>
      (if isHiddenName e.1 then [] else walkIgnore (base ++ [e.1]) e.2)
        ++ walkIgnoreEntries base rest
end

mutual
/-- Filesystem well-formedness: sibling names within each directory are
distinct, as on a real filesystem. -/
def nodeWF : FsNode → Bool
  | FsNode.dir es => decide ((es.map Prod.fst).Nodup) && entriesWF es

  | _ => true

/-- Well-formedness of all nodes in an entry list. -/
def entriesWF : List (List Char × FsNode) → Bool
  | [] => true
  | e :: rest => nodeWF e.2 && entriesWF rest
end

lemma mem_walkAllEntries_iff :
    ∀ (es : List (List Char × FsNode)) (base : List (List Char))
      (q : List (List Char)) (m : FsNode),
      (q, m) ∈ walkAllEntries base es ↔
        ∃ nm c, (nm, c) ∈ es ∧ (q, m) ∈ walkAll (base ++ [nm]) c := by
  intro es base q m
  induction es with
  | nil => simp [walkAllEntries]
  | cons e rest ih =>
      simp only [walkAllEntries, List.mem_append, ih, List.mem_cons]
      constructor
      · rintro (h | ⟨nm, c, hmem, hw⟩)
        · exact ⟨e.1, e.2, Or.inl rfl, h⟩
        · exact ⟨nm, c, Or.inr hmem, hw⟩
      · rintro ⟨nm, c, hmem | hmem, hw⟩
        · rw [show e = (nm, c) from hmem.symm] at *
          exact Or.inl hw
        · exact Or.inr ⟨nm, c, hmem, hw⟩

lemma mem_walkIgnoreEntries_iff :
    ∀ (es : List (List Char × FsNode)) (base : List (List Char))
      (q : List (List Char)) (m : FsNode),
      (q, m) ∈ walkIgnoreEntries base es ↔
        ∃ nm c, (nm, c) ∈ es ∧ isHiddenName nm = false
          ∧ (q, m) ∈ walkIgnore (base ++ [nm]) c := by
  intro es base q m
  induction es with
  | nil => simp [walkIgnoreEntries]
  | cons e rest ih =>
      simp only [walkIgnoreEntries, List.mem_append, ih, List.mem_cons]
      constructor
      · rintro (h | ⟨nm, c, hmem, hh, hw⟩)
        · by_cases hhid : isHiddenName e.1
          · rw [if_pos hhid] at h
            exact absurd h (List.not_mem_nil _)
          · rw [if_neg hhid] at h
            exact ⟨e.1, e.2, Or.inl rfl, Bool.eq_false_iff.mpr hhid, h⟩
        · exact ⟨nm, c, Or.inr hmem, hh, hw⟩
      · rintro ⟨nm, c, hmem | hmem, hh, hw⟩
        · rw [show e = (nm, c) from hmem.symm] at *
          rw [if_neg (by simp [hh])]
          exact Or.inl hw
        · exact Or.inr ⟨nm, c, hmem, hh, hw⟩

lemma sizeOf_entry_snd_lt {nm : List Char} {c : FsNode}
    {es : List (List Char × FsNode)} (h : (nm, c) ∈ es) :
    sizeOf c < sizeOf (FsNode.dir es) := by
  have h1 := List.sizeOf_lt_of_mem h
  have h2 : sizeOf (nm, c) = 1 + sizeOf nm + sizeOf c := by
    simp [Prod.mk.sizeOf_spec]
  have h3 : sizeOf (FsNode.dir es) = 1 + sizeOf es := by
    simp [FsNode.dir.sizeOf_spec]
  omega

lemma walkAll_shape :
    ∀ (k : Nat) (n : FsNode), sizeOf n ≤ k →
      ∀ base q m, (q, m) ∈ walkAll base n → ∃ t, q = base ++ t := by
  intro k
  induction k with
  | zero =>
      intro n hn
      exfalso
      cases n <;> simp_arith at hn
  | succ k ih =>
      intro n hn base q m hmem
      cases n with
      | dir es =>
          simp only [walkAll] at hmem
          rcases List.mem_cons.mp hmem with heq | hmem'
          · have hq := congrArg Prod.fst heq
            simp only at hq
            exact ⟨[], by rw [hq, List.append_nil]⟩
          · obtain ⟨nm, c, hc, hw⟩ := (mem_walkAllEntries_iff es base q m).mp hmem'
            have hsz : sizeOf c ≤ k := by
              have := sizeOf_entry_snd_lt hc
              omega
            obtain ⟨t, ht⟩ := ih c hsz (base ++ [nm]) q m hw
            exact ⟨nm :: t, by rw [ht, List.append_assoc]; rfl⟩
      | file d =>
          simp only [walkAll, List.mem_singleton] at hmem
          have hq := congrArg Prod.fst hmem
          simp only at hq
          exact ⟨[], by rw [hq, List.append_nil]⟩
      | symlinkFile d =>
          simp only [walkAll, List.mem_singleton] at hmem
          have hq := congrArg Prod.fst hmem
          simp only at hq
          exact ⟨[], by rw [hq, List.append_nil]⟩
      | symlinkDir =>
          simp only [walkAll, List.mem_singleton] at hmem
          have hq := congrArg Prod.fst hmem
          simp only at hq
          exact ⟨[], by rw [hq, List.append_nil]⟩
      | symlinkBroken =>
          simp only [walkAll, List.mem_singleton] at hmem
          have hq := congrArg Prod.fst hmem
          simp only at hq
          exact ⟨[], by rw [hq, List.append_nil]⟩

lemma walkIgnore_shape :
    ∀ (k : Nat) (n : FsNode), sizeOf n ≤ k →
      ∀ base q m, (q, m) ∈ walkIgnore base n →
        q = base ∨ ∃ nm t, q = base ++ nm :: t := by
  intro k
  induction k with
  | zero =>
      intro n hn
      exfalso
      cases n <;> simp_arith at hn
  | succ k ih =>
      intro n hn base q m hmem
      cases n with
      | dir es =>
          simp only [walkIgnore] at hmem
          rcases List.mem_cons.mp hmem with heq | hmem'
          · have hq := congrArg Prod.fst heq
            simp only at hq
            exact Or.inl hq
          · obtain ⟨nm, c, hc, _, hw⟩ := (mem_walkIgnoreEntries_iff es base q m).mp hmem'
            have hsz : sizeOf c ≤ k := by
              have := sizeOf_entry_snd_lt hc
              omega
            rcases ih c hsz (base ++ [nm]) q m hw with heq' | ⟨nm', t', ht'⟩
            · exact Or.inr ⟨nm, [], by rw [heq']⟩
            · refine Or.inr ⟨nm, nm' :: t', ?_⟩
              rw [ht', List.append_assoc]
              rfl
      | file d =>
          simp only [walkIgnore, List.mem_singleton] at hmem
          exact Or.inl (by have hq := congrArg Prod.fst hmem; simpa using hq)
      | symlinkFile d =>
          simp only [walkIgnore, List.mem_singleton] at hmem
          exact Or.inl (by have hq := congrArg Prod.fst hmem; simpa using hq)
      | symlinkDir =>
          simp only [walkIgnore, List.mem_singleton] at hmem
          exact Or.inl (by have hq := congrArg Prod.fst hmem; simpa using hq)
      | symlinkBroken =>
          simp only [walkIgnore, List.mem_singleton] at hmem
          exact Or.inl (by have hq := congrArg Prod.fst hmem; simpa using hq)

lemma walkAll_to_walkIgnore :
    ∀ (k : Nat) (n : FsNode), sizeOf n ≤ k →
      ∀ base q m, (q, m) ∈ walkAll base n →
        (∀ c ∈ q.drop base.length, isHiddenName c = false) →
        (q, m) ∈ walkIgnore base n := by
  intro k
  induction k with
  | zero =>
      intro n hn
      exfalso
      cases n <;> simp_arith at hn
  | succ k ih =>
      intro n hn base q m hmem hhid
      cases n with
      | dir es =>
          simp only [walkAll] at hmem
          simp only [walkIgnore]
          rcases List.mem_cons.mp hmem with heq | hmem'
          · exact List.mem_cons.mpr (Or.inl heq)
          · obtain ⟨nm, c, hc, hw⟩ := (mem_walkAllEntries_iff es base q m).mp hmem'
            have hsz : sizeOf c ≤ k := by
              have := sizeOf_entry_snd_lt hc
              omega
            obtain ⟨t, ht⟩ := walkAll_shape k c hsz (base ++ [nm]) q m hw
            have hqform : q = base ++ nm :: t := by
              rw [ht, List.append_assoc]
              rfl
            have hdrop : q.drop base.length = nm :: t := by
              rw [hqform]
              exact List.drop_left base (nm :: t)
            have hnmhid : isHiddenName nm = false := by
              apply hhid
              rw [hdrop]
              exact List.mem_cons_self nm t
            have hdrop' : q.drop (base ++ [nm]).length = t := by
              rw [ht]
              exact List.drop_left (base ++ [nm]) t
            refine List.mem_cons.mpr (Or.inr ?_)
            refine (mem_walkIgnoreEntries_iff es base q m).mpr
              ⟨nm, c, hc, hnmhid, ?_⟩
            apply ih c hsz (base ++ [nm]) q m hw
            intro c' hc'
            apply hhid
            rw [hdrop]
            rw [hdrop'] at hc'
            exact List.mem_cons_of_mem nm hc'
      | file d => simpa [walkIgnore] using (by simpa [walkAll] using hmem)
      | symlinkFile d => simpa [walkIgnore] using (by simpa [walkAll] using hmem)
      | symlinkDir => simpa [walkIgnore] using (by simpa [walkAll] using hmem)
      | symlinkBroken => simpa [walkIgnore] using (by simpa [walkAll] using hmem)

lemma walkIgnore_shape_cons {k : Nat} {c : FsNode} (hsz : sizeOf c ≤ k)
    {base : List (List Char)} {nm : List Char} {q : List (List Char)} {m : FsNode}
    (hw : (q, m) ∈ walkIgnore (base ++ [nm]) c) :
    ∃ s, q = base ++ nm :: s := by
  rcases walkIgnore_shape k c hsz (base ++ [nm]) q m hw with heq | ⟨nm', t', ht'⟩
  · exact ⟨[], heq⟩
  · refine ⟨nm' :: t', ?_⟩
    rw [ht', List.append_assoc]
    rfl

lemma walkIgnore_nodup_main :
    ∀ (k : Nat),
      (∀ (n : FsNode), sizeOf n ≤ k → nodeWF n = true →
        ∀ base, ((walkIgnore base n).map Prod.fst).Nodup)
      ∧ (∀ (es : List (List Char × FsNode)), sizeOf es ≤ k →
          (es.map Prod.fst).Nodup → entriesWF es = true →
          ∀ base, ((walkIgnoreEntries base es).map Prod.fst).Nodup) := by
  intro k
  induction k with
  | zero =>
      constructor
      · intro n hn
        exfalso
        cases n <;> simp_arith at hn
      · intro es hn
        exfalso
        cases es <;> simp_arith at hn
  | succ k ih =>
      constructor
      · intro n hn hwf base
        cases n with
        | dir es =>
            have hwf' : ((es.map Prod.fst).Nodup) ∧ entriesWF es = true := by
              simpa [nodeWF] using hwf
            simp only [walkIgnore, List.map_cons]
            rw [List.nodup_cons]
            constructor
            · intro hbase
              obtain ⟨⟨q, m⟩, hqm, hq⟩ := List.mem_map.mp hbase
              obtain ⟨nm, c, hc, _, hw⟩ :=
                (mem_walkIgnoreEntries_iff es base q m).mp hqm
              have hsz : sizeOf c ≤ k := by
                have := sizeOf_entry_snd_lt hc
                omega
              obtain ⟨s, hs⟩ := walkIgnore_shape_cons hsz hw
              simp only at hq
              rw [hq] at hs
              have := congrArg List.length hs
              simp at this
            · have hszes : sizeOf es ≤ k := by
                have hdir : sizeOf (FsNode.dir es) = 1 + sizeOf es := by
                  simp [FsNode.dir.sizeOf_spec]
                omega
              exact ih.2 es hszes hwf'.1 hwf'.2 base
        | file d => simp [walkIgnore]
        | symlinkFile d => simp [walkIgnore]
        | symlinkDir => simp [walkIgnore]
        | symlinkBroken => simp [walkIgnore]
      · intro es hn hnames hwf base
        cases es with
        | nil => simp [walkIgnoreEntries]
        | cons e rest =>
            have hp : sizeOf e = 1 + sizeOf e.1 + sizeOf e.2 := by
              obtain ⟨nm, c⟩ := e
              simp [Prod.mk.sizeOf_spec]
            have hcons := List.cons.sizeOf_spec e rest
            have hsze : sizeOf e.2 ≤ k := by omega
            have hszrest : sizeOf rest ≤ k := by omega
            have hwfe : nodeWF e.2 = true ∧ entriesWF rest = true := by
              simpa [entriesWF] using hwf
            have hnames' : e.1 ∉ rest.map Prod.fst ∧ (rest.map Prod.fst).Nodup := by
              rw [List.map_cons, List.nodup_cons] at hnames
              exact hnames
            simp only [walkIgnoreEntries, List.map_append]
            apply List.Nodup.append
            · by_cases hhid : isHiddenName e.1
              · simp [hhid]
              · rw [if_neg hhid]
                exact ih.1 e.2 hsze hwfe.1 (base ++ [e.1])
            · exact ih.2 rest hszrest hnames'.2 hwfe.2 base
            · intro q hq1 hq2
              by_cases hhid : isHiddenName e.1
              · rw [if_pos hhid] at hq1
                simp at hq1
              · rw [if_neg hhid] at hq1
                obtain ⟨⟨q1, m1⟩, hqm1, hq1'⟩ := List.mem_map.mp hq1
                simp only at hq1'
                subst hq1'
                obtain ⟨s1, hs1⟩ := walkIgnore_shape_cons hsze hqm1
                obtain ⟨⟨q2, m2⟩, hqm2, hq2'⟩ := List.mem_map.mp hq2
                simp only at hq2'
                subst hq2'
                obtain ⟨nm, c, hc, _, hw⟩ :=
                  (mem_walkIgnoreEntries_iff rest base q2 m2).mp hqm2
                have hszc : sizeOf c ≤ k := by
                  have h1 := sizeOf_entry_snd_lt hc
                  have h2 : sizeOf (FsNode.dir rest) = 1 + sizeOf rest := by
                    simp [FsNode.dir.sizeOf_spec]
                  omega
                obtain ⟨s2, hs2⟩ := walkIgnore_shape_cons hszc hw
                rw [hs2] at hs1
                have hheads := List.append_cancel_left hs1
                have hnm : nm = e.1 := (List.cons.injEq .. ▸ hheads).1
                apply hnames'.1
                rw [← hnm]
                exact List.mem_map.mpr ⟨(nm, c), hc, rfl⟩

namespace Sunfish

/-- Transcribes the output file-name match in Sunfish::export: "/" maps to
"/index.html", a path ending in '/' gets "index.html" appended, any other
path gets ".html" appended. -/
def output_html_name (path : List Char) : List Char :=
  if path = "/".data then "/index.html".data
  else if path.getLast? = some '/' then path ++ "index.html".data
  else path ++ ".html".data

/-- Models str::strip_prefix('/'): the rest after a leading slash, none
otherwise (the code unwraps the result, so none is a panic). -/
def stripLeadSlash : List Char → Option (List Char)
  | '/' :: rest => some rest
  | _ => none

/-- The dist-relative output file name Sunfish::export computes for one
rendered page path. -/
def output_rel_path (path : List Char) : Option (List Char) :=
  stripLeadSlash (output_html_name path)

/-- Transcribes pub enum Route in src/lib.rs, restricted to what export
observes: a Static route's optional path enumerator fn() -> Vec of String
is modelled by the list it returns and its handler Fn(String) -> String by
a Lean function; a Dynamic route's request handler cannot be invoked by
export at all, so it carries no data here. -/
inductive Route where
  | static (paths : Option (List (List Char))) (handler : List Char → List Char)
  | dynamic

/-- Transcribes pub struct RouteInitializer in src/lib.rs; init is a cheap
side-effect-free factory fn() -> Route (spec section 9), modelled by the
Route it returns. -/
structure RouteInitializer where
  path_with_placeholders : List Char
  route : Route

/-- The dist writes one route contributes during export, in path order:
Dynamic routes are skipped; a Static route renders every enumerated path
(or the single placeholder pattern when no enumerator is present) and
writes the rendered string's UTF-8 bytes under the html file name.  The
dist path is the component list of the relative name (the model of
dist_path.join); none models the strip's unwrap panic on a path with no
leading slash. -/
def routeWrites (ri : RouteInitializer) : Option (List (List (List Char) × List Nat)) :=
  match ri.route with
  | Route.dynamic => some []
  | Route.static ps handler =>
      optionMapList
        (fun p => (output_rel_path p).map
            (fun rel => (splitOnSep '/' rel, charBytes (handler p))))
        (ps.getD [ri.path_with_placeholders])

/-- All rendered-page writes of an export run, in route order. -/
def pageWrites (routes : List RouteInitializer) :
    Option (List (List (List Char) × List Nat)) :=
  (optionMapList routeWrites routes).map List.flatten

/-- The asset-copy phase of Sunfish::export: walk the output root with the
ignore crate's default filters and copy every entry whose
symlink-following is_file test holds (Path::is_file is false when metadata
errors, so such entries are skipped, not fatal); fs::copy reads through
symlinks. -/
def copyPhase (outputRoot : FsNode) : List (List (List Char) × List Nat) :=
  (walkIgnore [] outputRoot).filterMap
    (fun pn =>
      if (metadataIsFile pn.2).getD false then
        (readFileData pn.2).map (fun d => (pn.1, d))
      else none)

/-- The dist writes of Sunfish::export in order: asset copies first, then
rendered pages; a later write to a path overwrites an earlier one.  none
models an export panic.  Directory recreation and the possibility of I/O
failure are modelled separately by ExportOps below. -/
def exportRun (outputRoot : FsNode) (routes : List RouteInitializer) :
    Option (List (List (List Char) × List Nat)) :=
  (pageWrites routes).map (fun pw => copyPhase outputRoot ++ pw)

/-- The content a dist file holds after a write sequence: the last write
at that path, if any. -/
def distContent (writes : List (List (List Char) × List Nat))
    (p : List (List Char)) : Option (List Nat) :=
  ((writes.filter (fun w => decide (w.1 = p))).getLast?).map Prod.snd

end Sunfish

/-- C5: export's page-path to file-name mapping: "/" maps to index.html at
the dist root; any other path ending in '/' maps to the path with
index.html appended; any other path maps to the path with .html appended
(each made dist-relative by stripping the leading slash). -/
theorem export_path_mapping :
    Sunfish.output_rel_path ("/".data) = some ("index.html".data)
    ∧ (∀ rest, '/' :: rest ≠ "/".data → ('/' :: rest).getLast? = some '/' →
        Sunfish.output_rel_path ('/' :: rest) = some (rest ++ "index.html".data))
    ∧ (∀ rest, ('/' :: rest).getLast? ≠ some '/' →
        Sunfish.output_rel_path ('/' :: rest) = some (rest ++ ".html".data)) := by
  refine ⟨by decide, ?_, ?_⟩
  · intro rest h1 h2
    unfold Sunfish.output_rel_path Sunfish.output_html_name
    rw [if_neg h1, if_pos h2, List.cons_append]
    rfl
  · intro rest h2
    have h1 : '/' :: rest ≠ "/".data := by
      intro heq
      apply h2
      rw [heq]
      decide
    unfold Sunfish.output_rel_path Sunfish.output_html_name
    rw [if_neg h1, if_neg h2, List.cons_append]
    rfl

/-- Witness for C5 at the concrete paths "/blog/" and "/about". -/
theorem export_path_mapping_witness :
    Sunfish.output_rel_path ('/' :: "blog/".data)
        = some ("blog/".data ++ "index.html".data)
    ∧ Sunfish.output_rel_path ('/' :: "about".data)
        = some ("about".data ++ ".html".data) :=
  ⟨export_path_mapping.2.1 ("blog/".data) (by decide) (by decide),
   export_path_mapping.2.2 ("about".data) (by decide)⟩

lemma pageWrites_dynamic_skip :
    ∀ (pre post : List Sunfish.RouteInitializer) (pat : List Char),
      Sunfish.pageWrites (pre ++ ⟨pat, Sunfish.Route.dynamic⟩ :: post)
        = Sunfish.pageWrites (pre ++ post) := by
  intro pre post pat
  unfold Sunfish.pageWrites
  induction pre with
  | nil =>
      simp only [List.nil_append, optionMapList]
      rw [show Sunfish.routeWrites ⟨pat, Sunfish.Route.dynamic⟩ = some [] from rfl]
      cases optionMapList Sunfish.routeWrites post with
      | none => rfl
      | some bs => simp
  | cons r pre' ih =>
      simp only [List.cons_append, optionMapList]
      cases hr : Sunfish.routeWrites r with
      | none => rfl
      | some b =>
          cases hA : optionMapList Sunfish.routeWrites
              (pre' ++ ⟨pat, Sunfish.Route.dynamic⟩ :: post) with
          | none =>
              cases hB : optionMapList Sunfish.routeWrites (pre' ++ post) with
              | none => rfl
              | some bs =>
                  rw [hA, hB] at ih
                  simp at ih
          | some as =>
              cases hB : optionMapList Sunfish.routeWrites (pre' ++ post) with
              | none =>
                  rw [hA, hB] at ih
                  simp at ih
              | some bs =>
                  rw [hA, hB] at ih
                  have hflat : List.flatten as = List.flatten bs := by
                    simpa using ih
                  show (some (b :: as)).map List.flatten
                      = (some (b :: bs)).map List.flatten
                  simp [hflat]

/-- C6: export writes pages only for Static routes: a Dynamic route
inserted anywhere in the route table changes nothing about the dist
writes; a Static route with no enumerator behaves exactly as one
enumerating only its placeholder pattern; and a Static route with an
enumerator writes exactly the enumerated paths, each rendered by the
route's handler and placed at its html file name. -/
theorem export_skips_dynamic :
    (∀ outputRoot pre post pat,
       Sunfish.exportRun outputRoot (pre ++ ⟨pat, Sunfish.Route.dynamic⟩ :: post)
         = Sunfish.exportRun outputRoot (pre ++ post))
    ∧ (∀ pat handler,
       Sunfish.routeWrites ⟨pat, Sunfish.Route.static none handler⟩
         = Sunfish.routeWrites ⟨pat, Sunfish.Route.static (some [pat]) handler⟩)
    ∧ (∀ pat ps handler,
       Sunfish.routeWrites ⟨pat, Sunfish.Route.static (some ps) handler⟩
         = optionMapList
             (fun p => (Sunfish.output_rel_path p).map
                 (fun rel => (splitOnSep '/' rel, charBytes (handler p)))) ps) := by
  refine ⟨?_, ?_, ?_⟩
  · intro outputRoot pre post pat
    unfold Sunfish.exportRun
    rw [pageWrites_dynamic_skip]
  · intro pat handler
    rfl
  · intro pat ps handler
    rfl

lemma filterMap_keys_sublist {α β γ : Type} (g : α × β → Option (α × γ))
    (hg : ∀ x y, g x = some y → y.1 = x.1) :
    ∀ l : List (α × β), ((l.filterMap g).map Prod.fst).Sublist (l.map Prod.fst) := by
  intro l
  induction l with
  | nil => simp
  | cons a rest ih =>
      rw [List.filterMap_cons]
      cases hga : g a with
      | none =>
          rw [List.map_cons]
          exact ih.cons a.1
      | some y =>
          rw [List.map_cons, List.map_cons, hg a y hga]
          exact ih.cons₂ a.1

lemma filter_keyed_nil {γ : Type} :
    ∀ (l : List (List (List Char) × γ)) (p : List (List Char)),
      p ∉ l.map Prod.fst →
      l.filter (fun w => decide (w.1 = p)) = [] := by
  intro l p hnot
  rw [List.filter_eq_nil_iff]
  intro w hw
  simp only [decide_eq_true_eq]
  intro heq
  exact hnot (List.mem_map.mpr ⟨w, hw, heq⟩)

lemma filter_single_of_nodup_keys {γ : Type} :
    ∀ (l : List (List (List Char) × γ)) (p : List (List Char)) (d : γ),
      (l.map Prod.fst).Nodup → (p, d) ∈ l →
      l.filter (fun w => decide (w.1 = p)) = [(p, d)] := by
  intro l
  induction l with
  | nil =>
      intro p d _ hmem
      exact absurd hmem (List.not_mem_nil _)
  | cons a rest ih =>
      intro p d hnodup hmem
      rw [List.map_cons, List.nodup_cons] at hnodup
      by_cases hq : a.1 = p
      · rcases List.mem_cons.mp hmem with heq | hmem'
        · rw [List.filter_cons, if_pos (by simp [hq]), ← heq,
              filter_keyed_nil rest p (hq ▸ hnodup.1)]
        · exfalso
          apply hnodup.1
          rw [hq]
          exact List.mem_map.mpr ⟨(p, d), hmem', rfl⟩
      · rcases List.mem_cons.mp hmem with heq | hmem'
        · exfalso
          apply hq
          rw [← heq]
        · rw [List.filter_cons, if_neg (by simp [hq])]
          exact ih p d hnodup.2 hmem'

/-- Counterexample for C3 as stated: a regular file whose name is hidden
(dot-prefixed) exists under the asset root, a complete export succeeds
with no routes, yet nothing is written at the file's relative dist path:
the ignore-crate walk used by the copy phase skips hidden entries. -/
theorem export_copies_counterexample :
    ([".h".data], FsNode.file [104])
        ∈ walkAll [] (FsNode.dir [(".h".data, FsNode.file [104])])
    ∧ Sunfish.exportRun (FsNode.dir [(".h".data, FsNode.file [104])]) [] = some []
    ∧ Sunfish.distContent [] [".h".data] = none := by
  refine ⟨?_, by decide, by decide⟩
  simp [walkAll, walkAllEntries]

/-- C3 amended: during export, every regular file under the asset root
whose relative path has no hidden (dot-prefixed) component is copied to
the same relative location under distDir: after a successful export, and
provided no rendered page writes to that same path afterwards, the dist
file holds exactly the asset's bytes.  (The filesystem is well formed:
sibling names are distinct.) -/
theorem export_copies_assets :
    ∀ (outputRoot : FsNode) (routes : List Sunfish.RouteInitializer)
      (p : List (List Char)) (d : List Nat)
      (pw : List (List (List Char) × List Nat)),
      nodeWF outputRoot = true →
      (p, FsNode.file d) ∈ walkAll [] outputRoot →
      (∀ c ∈ p, isHiddenName c = false) →
      Sunfish.pageWrites routes = some pw →
      (∀ w ∈ pw, w.1 ≠ p) →
      Sunfish.exportRun outputRoot routes
          = some (Sunfish.copyPhase outputRoot ++ pw)
      ∧ Sunfish.distContent (Sunfish.copyPhase outputRoot ++ pw) p = some d := by
  intro outputRoot routes p d pw hwf hmem hhid hpw hnooverwrite
  constructor
  · unfold Sunfish.exportRun
    rw [hpw]
    rfl
  · have hmem_ignore : (p, FsNode.file d) ∈ walkIgnore [] outputRoot := by
      apply walkAll_to_walkIgnore (sizeOf outputRoot) outputRoot (le_refl _)
        [] p (FsNode.file d) hmem
      simpa using hhid
    have hcopy : (p, d) ∈ Sunfish.copyPhase outputRoot := by
      apply List.mem_filterMap.mpr
      exact ⟨(p, FsNode.file d), hmem_ignore, by simp [metadataIsFile, readFileData]⟩
    have hnodup_walk : ((walkIgnore [] outputRoot).map Prod.fst).Nodup :=
      (walkIgnore_nodup_main (sizeOf outputRoot)).1 outputRoot (le_refl _) hwf []
    have hnodup_copy : ((Sunfish.copyPhase outputRoot).map Prod.fst).Nodup := by
      apply List.Nodup.sublist _ hnodup_walk
      apply filterMap_keys_sublist
      intro x y hxy
      simp only at hxy
      by_cases hfile : (metadataIsFile x.2).getD false
      · rw [if_pos hfile] at hxy
        cases hread : readFileData x.2 with
        | none => rw [hread] at hxy; exact Option.noConfusion hxy
        | some dd =>
            rw [hread] at hxy
            have := Option.some.inj hxy
            rw [← this]
      · rw [if_neg hfile] at hxy
        exact Option.noConfusion hxy
    unfold Sunfish.distContent
    rw [List.filter_append,
        filter_single_of_nodup_keys (Sunfish.copyPhase outputRoot) p d
          hnodup_copy hcopy,
        filter_keyed_nil pw p ?_]
    · rfl
    · intro hp
      obtain ⟨w, hw, hweq⟩ := List.mem_map.mp hp
      exact hnooverwrite w hw hweq

/-- Witness for C3 at a concrete one-file tree with no routes. -/
theorem export_copies_assets_witness :
    Sunfish.distContent
        (Sunfish.copyPhase (FsNode.dir [("a.txt".data, FsNode.file [65])]) ++ [])
        ["a.txt".data]
      = some [65] :=
  (export_copies_assets (FsNode.dir [("a.txt".data, FsNode.file [65])]) [] 
      ["a.txt".data] [65] []
      (by decide)
      (by simp [walkAll, walkAllEntries])
      (by decide) rfl (by simp)).2

namespace Gen

/-- Transcribes fn embedded_directory in src/macro/include_dir.rs over the
model filesystem: walk the canonicalized source root (walkdir, not
following links), take std::fs::metadata of every visited path — metadata
follows symlinks, and an error (dangling link) is unwrapped, aborting the
build — keep exactly the paths whose metadata is a regular file, and map
each to the bytes read through links (a read failure also aborts) paired
with their fingerprint.  The Rust code sorts the absolute paths before
inserting into a BTreeMap; sorting affects only the map's iteration
order, never the key-to-value mapping this model represents, so it is not
modelled.  Keys are the paths relative to the root, as strip_prefix
produces them. -/
def embedded_directory (root : FsNode) :
    Option (List (List (List Char) × (List Nat × String))) :=
  if (walkAll [] root).all (fun pn => (metadataIsFile pn.2).isSome) then
    optionMapList
      (fun pn => (readFileData pn.2).map (fun d => (pn.1, (d, hash d))))
      ((walkAll [] root).filter
        (fun pn => decide (metadataIsFile pn.2 = some true)))
  else none

end Gen

/-- The mapping claim C2 predicts: exactly the regular files found by the
walk — symlinks and directories excluded — keyed by relative path with
the file's bytes. -/
def regularFilesOf (root : FsNode) : List (List (List Char) × List Nat) :=
  (walkAll [] root).filterMap
    (fun pn =>
      match pn.2 with
      | FsNode.file d => some (pn.1, d)
      | _ => none)

/-- Counterexample for C2 as stated: under a root holding a regular file
a.txt and a symlink ln to a regular file, the embedding maps both keys —
std::fs::metadata follows the symlink, so the symlink entry is not
excluded — while the regular files alone are only a.txt. -/
theorem embedded_symlink_counterexample :
    (Gen.embedded_directory
        (FsNode.dir [("a.txt".data, FsNode.file [65]),
                     ("ln".data, FsNode.symlinkFile [66])])).map
        (fun m => m.map Prod.fst)
      = some [["a.txt".data], ["ln".data]]
    ∧ (regularFilesOf
        (FsNode.dir [("a.txt".data, FsNode.file [65]),
                     ("ln".data, FsNode.symlinkFile [66])])).map Prod.fst
      = [["a.txt".data]]
    ∧ [["a.txt".data]] ≠ [["a.txt".data], ["ln".data]] :=
  ⟨by decide, by decide, by decide⟩

/-- C2 amended: when the build succeeds, the generated mapping holds an
entry for exactly the walked paths whose symlink-following metadata is a
regular file — directories and symlinks to directories are excluded, but
a symlink to a regular file is included under the symlink's own relative
path — and each entry's value is the bytes read (through links) paired
with their fingerprint.  A dangling symlink or failed read aborts the
build with no mapping at all. -/
theorem embedded_directory_entries :
    ∀ (root : FsNode) (m : List (List (List Char) × (List Nat × String))),
      Gen.embedded_directory root = some m →
      ∀ p v, ((p, v) ∈ m ↔
        ∃ n, (p, n) ∈ walkAll [] root ∧ metadataIsFile n = some true
          ∧ ∃ d, readFileData n = some d ∧ v = (d, Gen.hash d)) := by
  intro root m hm p v
  unfold Gen.embedded_directory at hm
  by_cases hall :
      (walkAll [] root).all (fun pn => (metadataIsFile pn.2).isSome) = true
  · rw [if_pos hall] at hm
    have hiff := optionMapList_mem_iff _ hm (p, v)
    rw [hiff]
    constructor
    · rintro ⟨⟨q, n⟩, hqn, hf⟩
      rw [List.mem_filter] at hqn
      simp only [decide_eq_true_eq] at hqn
      cases hread : readFileData n with
      | none =>
          rw [hread] at hf
          exact absurd hf (by simp)
      | some d =>
          rw [hread] at hf
          simp only [Option.map] at hf
          have hv := Option.some.inj hf
          have hq : q = p := congrArg Prod.fst hv
          refine ⟨n, hq ▸ hqn.1, hqn.2, d, hread, ?_⟩
          have := congrArg Prod.snd hv
          simp only at this
          rw [← this]
    · rintro ⟨n, hwalk, hmeta, d, hread, hv⟩
      refine ⟨(p, n), ?_, ?_⟩
      · rw [List.mem_filter]
        simp only [decide_eq_true_eq]
        exact ⟨hwalk, hmeta⟩
      · simp only [hread, Option.map, hv]
  · rw [if_neg hall] at hm
    exact absurd hm (by simp)

set_option maxRecDepth 4000 in
/-- Witness for C2 at the counterexample tree: the symlink entry is
reachable through the amended characterization. -/
theorem embedded_directory_entries_witness :
    (["ln".data], ([66], Gen.hash [66]))
      ∈ [(["a.txt".data], ([65], Gen.hash [65])),
         (["ln".data], ([66], Gen.hash [66]))] :=
  (embedded_directory_entries
      (FsNode.dir [("a.txt".data, FsNode.file [65]),
                   ("ln".data, FsNode.symlinkFile [66])])
      [(["a.txt".data], ([65], Gen.hash [65])),
       (["ln".data], ([66], Gen.hash [66]))]
      (by decide) (["ln".data]) ([66], Gen.hash [66])).mpr
    ⟨FsNode.symlinkFile [66], by simp [walkAll, walkAllEntries], rfl, [66], rfl, rfl⟩

/-- Outcome of a Sunfish::export run in the failure model: normal success,
an error returned to the caller through the ? operator, or a panic raised
by an unwrap (the function never returns in that case). -/
inductive ExportOutcome where
  | ok
  | err (e : String)
  | panicked (e : String)
deriving DecidableEq

/-- One failable filesystem operation of an export run: its result, and
whether a failure is propagated with ? (true) or unwrapped (false). -/
structure ExportStep where
  res : Except String Unit
  propagated : Bool

/-- Run the steps in order, stopping at the first failure: a propagated
failure yields err, an unwrapped one panics; the count is how many steps
actually executed. -/
def runSteps : List ExportStep → ExportOutcome × Nat
  | [] => (ExportOutcome.ok, 0)
  | s :: rest =>
      match s.res with
      | Except.ok _ =>
          ((runSteps rest).1, (runSteps rest).2 + 1)
      | Except.error e =>
          (if s.propagated then ExportOutcome.err e else ExportOutcome.panicked e, 1)

/-- The filesystem results one walked entry of the copy loop encounters:
the walkdir entry result itself (unwrapped), the is_file test, and — when
it is a file — the parent create_dir_all and the fs::copy (both
unwrapped). -/
structure CopyEntryOps where
  entry : Except String Unit
  is_file : Bool
  createParent : Except String Unit
  copy : Except String Unit

/-- The filesystem results one rendered page encounters: the parent
create_dir_all (unwrapped) and the fs::write (propagated with ?). -/
structure WriteOps where
  createParent : Except String Unit
  write : Except String Unit

/-- Every filesystem result a Sunfish::export run encounters, in program
order: remove_dir_all (performed only when fs::metadata(dist) succeeds;
propagated), create_dir_all of dist (propagated), then the copy loop's
entries, then the render loop's writes across all static route paths. -/
structure ExportOps where
  dist_exists : Bool
  removeDirAll : Except String Unit
  createDirAll : Except String Unit
  copies : List CopyEntryOps
  writes : List WriteOps

/-- The failable operation sequence of Sunfish::export with each one's
propagation kind, transcribed from the function's control flow:
remove_dir_all and create_dir_all use ?; the copy loop unwraps its entry,
its parent create_dir_all and its fs::copy (skipping the latter two when
is_file is false); the render loop unwraps its create_dir_all but
propagates fs::write with ?. -/
def exportSteps (ops : ExportOps) : List ExportStep :=
  (if ops.dist_exists then [⟨ops.removeDirAll, true⟩] else [])
    ++ [⟨ops.createDirAll, true⟩]
    ++ ops.copies.flatMap
        (fun c => ⟨c.entry, false⟩ ::
          (if c.is_file then [⟨c.createParent, false⟩, ⟨c.copy, false⟩] else []))
    ++ ops.writes.flatMap (fun w => [⟨w.createParent, false⟩, ⟨w.write, true⟩])

/-- The outcome of an export run over the given operation results. -/
def exportOutcome (ops : ExportOps) : ExportOutcome :=
  (runSteps (exportSteps ops)).1

/-- Counterexample for C4 as stated: a failing fs::copy during the asset
copy makes export abort by a panic inside the loop; the failure is not
surfaced as the function's returned error value. -/
theorem export_error_counterexample :
    exportOutcome ⟨false, Except.ok (), Except.ok (),
        [⟨Except.ok (), true, Except.ok (), Except.error "copy failed"⟩], []⟩
      = ExportOutcome.panicked "copy failed"
    ∧ exportOutcome ⟨false, Except.ok (), Except.ok (),
        [⟨Except.ok (), true, Except.ok (), Except.error "copy failed"⟩], []⟩
      ≠ ExportOutcome.err "copy failed" :=
  ⟨rfl, by decide⟩

/-- C4 amended: export performs its filesystem operations in order and
aborts at the first failing one, executing nothing after it and never
cleaning up; a failure of distDir removal/creation or of a rendered-page
fs::write is surfaced as the returned error value, while a failure inside
the asset-copy loop or of a render-phase parent-directory creation aborts
by panic instead of returning.  When no operation fails the run executes
every step and succeeds. -/
theorem export_aborts_on_first_failure :
    (∀ (pre : List ExportStep) (s : ExportStep) (post : List ExportStep) (e : String),
       (∀ t ∈ pre, t.res = Except.ok ()) → s.res = Except.error e →
       runSteps (pre ++ s :: post)
         = (if s.propagated then ExportOutcome.err e else ExportOutcome.panicked e,
            pre.length + 1))
    ∧ (∀ steps : List ExportStep, (∀ t ∈ steps, t.res = Except.ok ()) →
       runSteps steps = (ExportOutcome.ok, steps.length))
    ∧ (∀ ops : ExportOps, exportOutcome ops = (runSteps (exportSteps ops)).1) := by
  refine ⟨?_, ?_, fun _ => rfl⟩
  · intro pre
    induction pre with
    | nil =>
        intro s post e _ hs
        simp only [List.nil_append, runSteps, hs, List.length_nil]
    | cons t pre' ih =>
        intro s post e hpre hs
        have ht : t.res = Except.ok () := hpre t (List.mem_cons_self t pre')
        have hrest := ih s post e
          (fun u hu => hpre u (List.mem_cons_of_mem t hu)) hs
        simp only [List.cons_append, runSteps, ht, List.append_eq, hrest,
          List.length_cons]
  · intro steps
    induction steps with
    | nil => intro _; rfl
    | cons t rest ih =>
        intro hok
        have ht : t.res = Except.ok () := hok t (List.mem_cons_self t rest)
        have hrest := ih (fun u hu => hok u (List.mem_cons_of_mem t hu))
        simp only [runSteps, ht, hrest, List.length_cons]

/-- Witness for C4: one successful step, then a propagated failure, then a
step that is never reached; the run returns the error after executing two
steps. -/
theorem export_aborts_witness :
    runSteps [⟨Except.ok (), true⟩, ⟨Except.error "boom", true⟩,
              ⟨Except.ok (), false⟩]
      = (ExportOutcome.err "boom", 2) :=
  export_aborts_on_first_failure.1 [⟨Except.ok (), true⟩] ⟨Except.error "boom", true⟩
    [⟨Except.ok (), false⟩] "boom"
    (by intro t ht; rcases List.mem_singleton.mp ht with rfl; rfl) rfl
